import Mathlib

/-!
Verification of the kusanagi repository's rollout / loss-construction core.

This file gives a shallow embedding of the numeric semantics of
`src/ghost/cost.py` and `src/kusanagi/ghost/algorithms/mc_pilco.py` and proves
(or refutes) the frozen specification claims about them.

Modelling conventions:
* Theano tensor expressions are modelled by their numeric values: vectors are
  `Fin d → _`, matrices are Mathlib `Matrix`, particle ensembles (2-d arrays of
  shape `[n, D]`) are lists of row vectors.
* `cost.py` is modelled over `ℝ` (it uses `exp`, `sqrt`, `det`, `inv`);
  the rollout machinery of `mc_pilco.py` is modelled over `ℚ` so that
  everything is executable.
* Abstract collaborators (policy, dynamics model, `utils.gTrig`, the
  `tt.slinalg.cholesky` primitive) are fields of a `Model` structure; claims
  that depend on a property of a collaborator (e.g. that a Cholesky factor `L`
  satisfies `L * Lᵀ = Sx`) take that property as a hypothesis.
-/

namespace Kusanagi

open scoped Matrix

/-! ## Part 1: `src/ghost/cost.py` -/

/-- The `params` dictionary consumed by the loss functions of `cost.py`:
`params['Q']` (cost weight matrix) and `params['target']` (goal state). -/
structure CostParams (d : ℕ) where
  Q : Matrix (Fin d) (Fin d) ℝ
  target : Fin d → ℝ

/-- Embedding of `linear_loss(mx, Sx, params, absolute=True)` from
`src/ghost/cost.py` (lines 7-16).  `delta = mx - target`,
`m_cost = Q.T.dot(delta)`, `s_cost = Q.T.dot(Sx).dot(Q)`; the `absolute`
flag and the local `SxQ` are never used by the function body. -/
def linear_loss {d : ℕ} (mx : Fin d → ℝ) (Sx : Matrix (Fin d) (Fin d) ℝ)
    (p : CostParams d) ( absolute : Bool) : (Fin d → ℝ) × Matrix (Fin d) (Fin d) ℝ :=
  let Q := p.Q
  let target := p.target
  let delta := mx - target
  let m_cost := Q.transpose.mulVec delta
  let s_cost := Q.transpose * Sx * Q
  (m_cost, s_cost)

/-- Embedding of `quadratic_loss(mx, Sx, params)` from `src/ghost/cost.py`
(lines 18-28).  The body computes `delta`, `deltaQ = delta.T.dot(Q)`,
`SxQ = Sx.dot(Q)` and `m_cost = T.sum(SxQ) + deltaQ.dot(delta)` (note:
`T.sum` sums ALL entries of `SxQ`, not its trace), and then the `s_cost`
expression references the name `deltaiQ`, which is bound nowhere in the
module; evaluating the function therefore raises a Python `NameError`,
modelled here as an `Except.error`. -/
def quadratic_loss {d : ℕ} (mx : Fin d → ℝ) (Sx : Matrix (Fin d) (Fin d) ℝ)
    (p : CostParams d) : Except String (ℝ × ℝ) :=
  let Q := p.Q
  let target := p.target
  let delta := mx - target
  let deltaQ := Matrix.vecMul delta Q
  let SxQ := Sx * Q
  let m_cost := (∑ j, ∑ k, SxQ j k) + deltaQ ⬝ᵥ delta
  Except.error "NameError: name deltaiQ is not defined"

/-- Embedding of `quadratic_saturating_loss(mx, Sx, params)` from
`src/ghost/cost.py` (lines 30-44):
`m_cost = -exp(-0.5*delta.dot(S1).dot(delta)) / sqrt(det(I + Sx.dot(Q)))`
with `S1 = Q.dot(inv(I + Sx.dot(Q)))`, and the function returns
`(1 + m_cost, s_cost)`. -/
noncomputable def quadratic_saturating_loss {d : ℕ} (mx : Fin d → ℝ)
    (Sx : Matrix (Fin d) (Fin d) ℝ) (p : CostParams d) : ℝ × ℝ :=
  let Q := p.Q
  let target := p.target
  let delta := mx - target
  let SxQ := Sx * Q
  let IpSxQ := 1 + SxQ
  let S1 := Q * IpSxQ⁻¹
  let m_cost := -Real.exp (-(1/2 : ℝ) * (Matrix.vecMul delta S1 ⬝ᵥ delta)) / Real.sqrt IpSxQ.det
  let Ip2SxQ := 1 + (2 : ℝ) • SxQ
  let S2 := Q * Ip2SxQ⁻¹
  let s_cost := Real.exp (-(Matrix.vecMul delta S2 ⬝ᵥ delta)) / Real.sqrt Ip2SxQ.det - m_cost ^ 2
  (1 + m_cost, s_cost)

/-! ## Part 2: `src/kusanagi/ghost/algorithms/mc_pilco.py` — particle rollout

The rollout machinery is modelled over `ℚ`.  A particle ensemble of shape
`[n, D]` is a list of `n` row vectors `Fin D → ℚ`. -/

/-- A state row vector of dimension `d`. -/
abbrev RVec (d : ℕ) := Fin d → ℚ

/-- A particle ensemble: a list of row vectors (shape `[n, d]`). -/
abbrev Ensemble (d : ℕ) := List (RVec d)

/-- The abstract collaborators consumed by `mc_pilco.py`, as described by the
spec's external-interface section: the policy (`pol.evaluate`), the dynamics
model (`dyn.predict_symbolic`, returning a state-delta ensemble and a noise
scale of abstract type `ν`), the two calling conventions of the cost callable
(`cost(mx, Sx)[0]` on distribution moments and `cost(x, None)` per particle),
the `tt.slinalg.cholesky` primitive, and `utils.gTrig` (not under `src/`).

`gTrig` is modelled from the spec: `utils.gTrig(x, angle_dims, D)` replaces
designated angular coordinates of each state row by their (sin, cos) pair, so
it acts row-wise on the ensemble, producing rows of augmented dimension. -/
structure Model (D Da U : ℕ) (ν : Type) where
  gTrig : RVec D → RVec Da
  evaluate : Ensemble Da → Ensemble U
  predict_symbolic : Ensemble (Da + U) → Ensemble D × ν
  cost_m : RVec D → Matrix (Fin D) (Fin D) ℚ → ℚ
  cost_p : Ensemble D → List ℚ
  cholesky : Matrix (Fin D) (Fin D) ℚ → Matrix (Fin D) (Fin D) ℚ

/-- Embedding of `propagate_particles(x, pol, dyn, D, angle_dims)` from
`mc_pilco.py` (lines 11-37): angle-augment the ensemble, evaluate the policy,
concatenate state and control rows (`tt.concatenate([xa, u], axis=1)`),
predict the state change, and return `x + delta_x` with the noise scale
passed through. -/
def propagate_particles {D Da U : ℕ} {ν : Type} (M : Model D Da U ν)
    (x : Ensemble D) : Ensemble D × ν :=
  let xa := x.map M.gTrig
  let u := M.evaluate xa
  let xu := List.zipWith (fun a b => Fin.append a b) xa u
  let pred := M.predict_symbolic xu
  let delta_x := pred.1
  let sn_x := pred.2
  let x_next := List.zipWith (fun xi di => xi + di) x delta_x
  (x_next, sn_x)

/-- Empirical mean `x.mean(0)` of an ensemble (as in `mc_pilco.py` line 65). -/
def empMean {d : ℕ} (x : Ensemble d) : RVec d :=
  fun j => (x.map (fun r => r j)).sum / (x.length : ℚ)

/-- Empirical covariance `x.T.dot(x)/n - tt.outer(mx, mx)` of an ensemble
(as in `mc_pilco.py` line 66). -/
def empCov {d : ℕ} (x : Ensemble d) : Matrix (Fin d) (Fin d) ℚ :=
  Matrix.of fun j k =>
    (x.map (fun r => r j * r k)).sum / (x.length : ℚ) - empMean x j * empMean x k

/-- The Gaussian reprojection `mx + z.dot(cholesky(Sx).T)` used both by the
resampling branch of `step_rollout` (line 74) and by the initial-particle
draw `x0 = mx0 + z[0].dot(Lx0.T)` of `get_loss` (lines 166-167).
Row `i` of the result is `mx + Lᵀ`-combination of noise row `z i`. -/
def reproject {d : ℕ} (mx : RVec d) (L : Matrix (Fin d) (Fin d) ℚ)
    (z : Ensemble d) : Ensemble d :=
  z.map (fun zi => fun j => mx j + ∑ k, zi k * L j k)

/-- Embedding of the scan body `step_rollout(z, x, gamma, *args)` of
`rollout` (lines 58-77): propagate, compute empirical moments, evaluate both
cost forms, optionally resample, and emit
`[gamma*mc_next, gamma*c_next, x_next, gamma*gamma0]`. -/
def step_rollout {D Da U : ℕ} {ν : Type} (M : Model D Da U ν) (resample : Bool)
    (gamma0 : ℚ) (z_t : Ensemble D) (x : Ensemble D) (gamma : ℚ) :
    ℚ × List ℚ × Ensemble D × ℚ :=
  let pp := propagate_particles M x
  let x_next := pp.1
  let mx_next := empMean x_next
  let Sx_next := empCov x_next
  let mc_next := M.cost_m mx_next Sx_next
  let c_next := M.cost_p x_next
  let x_out := if resample then reproject mx_next (M.cholesky Sx_next) z_t else x_next
  (gamma * mc_next, c_next.map (fun c => gamma * c), x_out, gamma * gamma0)

/-- The `theano.scan` loop of `rollout` (lines 85-94): iterate `step_rollout`
over the noise slices, threading the ensemble and the discount, and collect
the per-step outputs `(gamma*mc_next, gamma*c_next, x_out)`. -/
def scan_rollout {D Da U : ℕ} {ν : Type} (M : Model D Da U ν) (resample : Bool)
    (gamma0 : ℚ) : List (Ensemble D) → Ensemble D → ℚ → List (ℚ × List ℚ × Ensemble D)
  | [], _, _ => []
  | z_t :: zs, x, gamma =>
    let s := step_rollout M resample gamma0 z_t x gamma
    (s.1, s.2.1, s.2.2.1) :: scan_rollout M resample gamma0 zs s.2.2.1 s.2.2.2

/-- Embedding of `rollout(x0, H, gamma0, ...)` (lines 40-103): run the scan
for `H` steps (`n_steps=H` over the sequence `z`), then return
`[mcosts, costs.T, trajectories.transpose(1, 0, 2)]` — per-step mean costs
(time-indexed), per-particle costs and trajectories (batch-major). -/
def rollout {D Da U : ℕ} {ν : Type} (M : Model D Da U ν) (x0 : Ensemble D)
    (H : ℕ) (gamma0 : ℚ) (resample : Bool) (z : List (Ensemble D)) :
    List ℚ × List (List ℚ) × List (List (RVec D)) :=
  let steps := scan_rollout M resample gamma0 (z.take H) x0 gamma0
  let mcosts := steps.map (fun s => s.1)
  let costs := steps.map (fun s => s.2.1)
  let trajectories := steps.map (fun s => s.2.2)
  (mcosts, costs.transpose, trajectories.transpose)

/-- The ensemble with which the scan leaves a step: the propagated particles,
or, when resampling, their Gaussian reprojection (third scan output). -/
def next_ensemble {D Da U : ℕ} {ν : Type} (M : Model D Da U ν) (resample : Bool)
    (z_t : Ensemble D) (x : Ensemble D) : Ensemble D :=
  let x_next := (propagate_particles M x).1
  if resample then reproject (empMean x_next) (M.cholesky (empCov x_next)) z_t else x_next

/-- The ensemble held by the scan when step `t` begins (so `ensembleAt 0`
is the initial ensemble). -/
def ensembleAt {D Da U : ℕ} {ν : Type} (M : Model D Da U ν) (resample : Bool) :
    List (Ensemble D) → Ensemble D → ℕ → Ensemble D
  | _, x, 0 => x
  | [], x, _ + 1 => x
  | z_t :: zs, x, t + 1 => ensembleAt M resample zs (next_ensemble M resample z_t x) t

/-- The raw propagated ensemble `x_next` computed inside step `t`, before
any resampling. -/
def raw_ensembleAt {D Da U : ℕ} {ν : Type} (M : Model D Da U ν) (resample : Bool)
    (zs : List (Ensemble D)) (x : Ensemble D) (t : ℕ) : Ensemble D :=
  (propagate_particles M (ensembleAt M resample zs x t)).1

/-- The undiscounted mean cost of step `t`: `cost(mx_next, Sx_next)[0]`
evaluated on the raw propagated ensemble of step `t`. -/
def raw_costAt {D Da U : ℕ} {ν : Type} (M : Model D Da U ν) (resample : Bool)
    (zs : List (Ensemble D)) (x : Ensemble D) (t : ℕ) : ℚ :=
  M.cost_m (empMean (raw_ensembleAt M resample zs x t))
    (empCov (raw_ensembleAt M resample zs x t))

lemma step_rollout_ensemble {D Da U : ℕ} {ν : Type} (M : Model D Da U ν)
    (resample : Bool) (gamma0 : ℚ) (z_t : Ensemble D) (x : Ensemble D) (gamma : ℚ) :
    (step_rollout M resample gamma0 z_t x gamma).2.2.1 = next_ensemble M resample z_t x := rfl

lemma step_rollout_gamma {D Da U : ℕ} {ν : Type} (M : Model D Da U ν)
    (resample : Bool) (gamma0 : ℚ) (z_t : Ensemble D) (x : Ensemble D) (gamma : ℚ) :
    (step_rollout M resample gamma0 z_t x gamma).2.2.2 = gamma * gamma0 := rfl

lemma ensembleAt_zero {D Da U : ℕ} {ν : Type} (M : Model D Da U ν) (r : Bool)
    (zs : List (Ensemble D)) (x : Ensemble D) : ensembleAt M r zs x 0 = x := by
  cases zs <;> rfl

lemma ensembleAt_succ_cons {D Da U : ℕ} {ν : Type} (M : Model D Da U ν) (r : Bool)
    (z_t : Ensemble D) (zs : List (Ensemble D)) (x : Ensemble D) (t : ℕ) :
    ensembleAt M r (z_t :: zs) x (t + 1) =
      ensembleAt M r zs (next_ensemble M r z_t x) t := rfl

/-- Characterisation of the `t`-th scan output: mean cost and per-particle
costs of step `t` carry the discount `γ·γ₀ᵗ` accumulated so far, and the
recorded ensemble is the (possibly resampled) successor ensemble. -/
lemma scan_rollout_getElem {D Da U : ℕ} {ν : Type} (M : Model D Da U ν)
    (r : Bool) (g0 : ℚ) :
    ∀ (t : ℕ) (zs : List (Ensemble D)) (x : Ensemble D) (γ : ℚ),
      t < zs.length →
      (scan_rollout M r g0 zs x γ)[t]? =
        some (γ * g0 ^ t * raw_costAt M r zs x t,
              (M.cost_p (raw_ensembleAt M r zs x t)).map (fun c => γ * g0 ^ t * c),
              ensembleAt M r zs x (t + 1)) := by
  intro t
  induction t with
  | zero =>
    intro zs x γ ht
    match zs with
    | [] => simp at ht
    | z_t :: zs =>
      simp only [scan_rollout, List.getElem?_cons_zero, pow_zero, mul_one,
        step_rollout_ensemble, raw_costAt, raw_ensembleAt, ensembleAt_zero,
        ensembleAt_succ_cons, step_rollout, next_ensemble]
  | succ t ih =>
    intro zs x γ ht
    match zs with
    | [] => simp at ht
    | z_t :: zs =>
      have ht' : t < zs.length := by simpa using ht
      simp only [scan_rollout, List.getElem?_cons_succ, step_rollout_ensemble,
        step_rollout_gamma]
      rw [ih zs (next_ensemble M r z_t x) (γ * g0) ht']
      have hco : γ * g0 * g0 ^ t = γ * g0 ^ (t + 1) := by ring
      simp only [hco, raw_costAt, raw_ensembleAt, ensembleAt_succ_cons]

/-! ## Part 3: `get_loss` — common-random-number buffer (lines 145-167)

`get_loss` draws its initial-particle noise with
`z = theano.shared(np.random.normal(size=(100, n_samples, D)))` — this
statement executes anew on every `get_loss` call, pulling fresh variates from
the process-global numpy RNG — and then adapts the buffer to the requested
horizon `H` with `ifelse(z.shape[0] < H, tile(z, (ceil(H/z.shape[0]), 1, 1)),
z)[:H]`. -/

/-- Modelled from the spec: the process-global numpy RNG behind
`np.random.normal` (an external collaborator, not in `src/`), as an infinite
stream of draws together with a cursor that advances with every variate
consumed.  `np.random.normal(size=...)` returns the next `count` draws in
C order and advances the global state. -/
def np_random_normal (stream : ℕ → ℚ) (cursor count : ℕ) : List ℚ × ℕ :=
  ((List.range count).map fun i => stream (cursor + i), cursor + count)

/-- The buffer creation `z = theano.shared(np.random.normal(size=(100,
n_samples, D)))` executed by one `get_loss` invocation with `crn=True`
(`mc_pilco.py` lines 152-154): `100·n_samples·D` variates (row-major
flattening of the `(100, n_samples, D)` array) drawn from the global RNG,
which advances its state. -/
def get_loss_crn_draw (stream : ℕ → ℚ) (cursor n_samples D : ℕ) : List ℚ × ℕ :=
  np_random_normal stream cursor (100 * n_samples * D)

/-- `tt.tile(z, (reps, 1, 1))`: stack `reps` copies of the buffer along the
first (horizon) axis.  Elements of `z` are the `(n_samples, D)` slices. -/
def tile_rows {α : Type} (z : List α) (reps : ℕ) : List α :=
  (List.replicate reps z).flatten

/-- The tiling factor `tt.ceil(H / z.shape[0]).astype('int64')` of
`get_loss` (line 158): the ceiling of the true division `H / capacity`. -/
def crn_growth_factor (H cap : ℕ) : ℕ :=
  (⌈(H : ℚ) / (cap : ℚ)⌉).toNat

/-- The buffer-shape adaptation of `get_loss` (lines 156-161):
`ifelse(z.shape[0] < H, tile(z, (ceil(H/z.shape[0]), 1, 1)), z)[:H]`. -/
def crn_z {α : Type} (z : List α) (H : ℕ) : List α :=
  (if z.length < H then tile_rows z (crn_growth_factor H z.length) else z).take H

/-! ## Part 4: concrete instantiation used by the witnesses -/

/-- A concrete, fully computable `Model` at `D = Da = U = 1`: identity angle
augmentation and policy, a dynamics model predicting a constant state delta
of `1` with trivial noise scale, mean cost = first mean coordinate,
per-particle cost = first coordinate, identity Cholesky. -/
def witModel : Model 1 1 1 Unit where
  gTrig := id
  evaluate := id
  predict_symbolic := fun xu => (xu.map (fun _ => fun _ => (1 : ℚ)), ())
  cost_m := fun mx _ => mx 0
  cost_p := fun x => x.map (fun r => r 0)
  cholesky := id

/-! ## Theorems for cost.py claims -/

/-- C8: `linear_loss` returns exactly `m_cost = Qᵀ·(mx − target)` and
`s_cost = Qᵀ·Sx·Q`, for both values of the `absolute` flag (which the body
never reads). -/
theorem linear_loss_spec {d : ℕ} (mx : Fin d → ℝ) (Sx : Matrix (Fin d) (Fin d) ℝ)
    (p : CostParams d) (b : Bool) :
    linear_loss mx Sx p b =
      (p.Q.transpose.mulVec (mx - p.target), p.Q.transpose * Sx * p.Q) := rfl

/-- C4: calling `quadratic_loss` fails: its `s_cost` expression references the
undefined name `deltaiQ`, so the function raises `NameError` instead of
returning the closed-form quadratic-form moments.  Shown here at a concrete
input (`d = 1`, `mx = 0`, `Sx = 1`, `Q = 1`, `target = 0`). -/
theorem quadratic_loss_name_error :
    quadratic_loss (fun _ : Fin 1 => (0 : ℝ)) (1 : Matrix (Fin 1) (Fin 1) ℝ)
      ⟨1, fun _ => 0⟩ = Except.error "NameError: name deltaiQ is not defined" := rfl

/-- Closed form of the first component of `quadratic_saturating_loss`. -/
lemma quadratic_saturating_loss_fst {d : ℕ} (mx : Fin d → ℝ)
    (Sx : Matrix (Fin d) (Fin d) ℝ) (p : CostParams d) :
    (quadratic_saturating_loss mx Sx p).1 =
      1 - Real.exp (-(1/2 : ℝ) *
            (Matrix.vecMul (mx - p.target) (p.Q * (1 + Sx * p.Q)⁻¹) ⬝ᵥ (mx - p.target))) /
          Real.sqrt (1 + Sx * p.Q).det := by
  simp only [quadratic_saturating_loss, neg_div, sub_eq_add_neg]

/-- For a real positive-semidefinite matrix `M`, `det (1 + M) ≥ 1`
(all eigenvalues of `M` are nonnegative). -/
lemma one_le_det_one_add {d : ℕ} {M : Matrix (Fin d) (Fin d) ℝ}
    (hM : M.PosSemidef) : 1 ≤ (1 + M).det := by
  have hH : M.IsHermitian := hM.isHermitian
  set U : Matrix (Fin d) (Fin d) ℝ := (hH.eigenvectorUnitary : Matrix (Fin d) (Fin d) ℝ) with hUdef
  set Dg : Matrix (Fin d) (Fin d) ℝ := Matrix.diagonal (RCLike.ofReal ∘ hH.eigenvalues) with hDg
  have hU : U * star U = 1 := Matrix.mem_unitaryGroup_iff.mp hH.eigenvectorUnitary.2
  have hspec : M = U * Dg * star U := hH.spectral_theorem
  have h1 : (1 : Matrix (Fin d) (Fin d) ℝ) + M = U * (1 + Dg) * star U := by
    rw [Matrix.mul_add, Matrix.add_mul, Matrix.mul_one, hU, ← hspec]
  have hdet : (1 + M).det = (1 + Dg).det := by
    have hUU : U.det * (star U).det = 1 := by
      rw [← Matrix.det_mul, hU, Matrix.det_one]
    rw [h1, Matrix.det_mul, Matrix.det_mul]
    calc U.det * (1 + Dg).det * (star U).det
        = (1 + Dg).det * (U.det * (star U).det) := by ring
      _ = (1 + Dg).det := by rw [hUU, mul_one]
  rw [hdet, hDg, ← Matrix.diagonal_one, Matrix.diagonal_add, Matrix.det_diagonal]
  calc (1 : ℝ) = ∏ _i : Fin d, (1 : ℝ) := Finset.prod_const_one.symm
    _ ≤ _ := by
      refine Finset.prod_le_prod (fun i _ => zero_le_one) fun i _ => ?_
      have := hM.eigenvalues_nonneg i
      simp only [Pi.add_apply, Pi.one_apply, Function.comp_apply, RCLike.ofReal_real_eq_id, id_eq]
      linarith

/-- For `Sx` and `Q` positive semidefinite, `det (1 + Sx·Q) ≥ 1`
(via `Sx = √Sx · √Sx` and the Weinstein–Aronszajn identity). -/
lemma one_le_det_one_add_mul {d : ℕ} {Sx Q : Matrix (Fin d) (Fin d) ℝ}
    (hS : Sx.PosSemidef) (hQ : Q.PosSemidef) : 1 ≤ (1 + Sx * Q).det := by
  have hRR : hS.sqrt * hS.sqrt = Sx := hS.sqrt_mul_self
  have h1 : 1 + Sx * Q = 1 + hS.sqrt * (hS.sqrt * Q) := by
    rw [← Matrix.mul_assoc, hRR]
  have h2 : (1 + hS.sqrt * (hS.sqrt * Q)).det = (1 + hS.sqrt * Q * hS.sqrt).det := by
    rw [Matrix.det_one_add_mul_comm hS.sqrt (hS.sqrt * Q), Matrix.mul_assoc]
  have hpsd : (hS.sqrt * Q * hS.sqrt).PosSemidef := by
    have := hQ.mul_mul_conjTranspose_same hS.sqrt
    rwa [hS.posSemidef_sqrt.isHermitian.eq] at this
  rw [h1, h2]
  exact one_le_det_one_add hpsd

/-- For `Q` positive definite and `Sx` positive semidefinite,
`S1 = Q·(1 + Sx·Q)⁻¹` equals `(Q⁻¹ + Sx)⁻¹` and is positive semidefinite. -/
lemma S1_posSemidef {d : ℕ} {Sx Q : Matrix (Fin d) (Fin d) ℝ}
    (hQ : Q.PosDef) (hS : Sx.PosSemidef) : (Q * (1 + Sx * Q)⁻¹).PosSemidef := by
  have hdet : (1 : ℝ) ≤ (1 + Sx * Q).det := one_le_det_one_add_mul hS hQ.posSemidef
  have hunit : IsUnit (1 + Sx * Q).det := isUnit_iff_ne_zero.2 (by linarith)
  have hQdet : IsUnit Q.det := isUnit_iff_ne_zero.2 (ne_of_gt hQ.det_pos)
  have hkey : (Q⁻¹ + Sx) * (Q * (1 + Sx * Q)⁻¹) = 1 := by
    have hfac : (Q⁻¹ + Sx) * Q = 1 + Sx * Q := by
      rw [Matrix.add_mul, Matrix.nonsing_inv_mul _ hQdet]
    rw [← Matrix.mul_assoc, hfac, Matrix.mul_nonsing_inv _ hunit]
  have hinv : (Q⁻¹ + Sx)⁻¹ = Q * (1 + Sx * Q)⁻¹ := Matrix.inv_eq_right_inv hkey
  have hPD : (Q⁻¹ + Sx).PosDef := hQ.inv.add_posSemidef hS
  exact hinv ▸ hPD.inv.posSemidef

/-- C5 counterexample: at `mx = target` and `Sx = 0` the cost returned by
`quadratic_saturating_loss` equals `0` exactly, which does NOT lie in the
claimed interval `(0, 1]`. -/
theorem quadratic_saturating_loss_at_target_zero :
    (quadratic_saturating_loss (fun _ : Fin 1 => (0 : ℝ)) 0 ⟨1, fun _ => 0⟩).1 = 0 ∧
      ¬ (0 < (quadratic_saturating_loss (fun _ : Fin 1 => (0 : ℝ)) 0 ⟨1, fun _ => 0⟩).1) := by
  have h : (quadratic_saturating_loss (fun _ : Fin 1 => (0 : ℝ)) 0 ⟨1, fun _ => 0⟩).1 = 0 := by
    rw [quadratic_saturating_loss_fst]
    have hdelta : (fun _ : Fin 1 => (0 : ℝ)) - (fun _ : Fin 1 => (0 : ℝ)) = 0 := by
      funext i; simp
    simp [hdelta, Matrix.zero_mul, Matrix.det_one, Real.sqrt_one]
  exact ⟨h, by rw [h]; exact lt_irrefl 0⟩

/-- C5 (amended): for a positive-definite cost weight matrix `Q` and any valid
(positive-semidefinite) `Sx`, the cost returned by `quadratic_saturating_loss`
lies in `[0, 1)`, and the value at `mx = target`, `Sx = 0` is exactly `0`,
hence minimal over all valid inputs. -/
theorem quadratic_saturating_loss_minimal {d : ℕ} (mx : Fin d → ℝ)
    (Sx : Matrix (Fin d) (Fin d) ℝ) (p : CostParams d)
    (hQ : p.Q.PosDef) (hS : Sx.PosSemidef) :
    (quadratic_saturating_loss p.target 0 p).1 = 0 ∧
      0 ≤ (quadratic_saturating_loss mx Sx p).1 ∧
      (quadratic_saturating_loss mx Sx p).1 < 1 := by
  have hz : (quadratic_saturating_loss p.target 0 p).1 = 0 := by
    rw [quadratic_saturating_loss_fst]
    simp [Matrix.zero_mul, Matrix.det_one, Real.sqrt_one]
  refine ⟨hz, ?_, ?_⟩ <;> rw [quadratic_saturating_loss_fst]
  all_goals {
    have hdet : (1 : ℝ) ≤ (1 + Sx * p.Q).det := one_le_det_one_add_mul hS hQ.posSemidef
    have hsqrt : (1 : ℝ) ≤ Real.sqrt (1 + Sx * p.Q).det := Real.one_le_sqrt.2 hdet
    have hsqrtpos : (0 : ℝ) < Real.sqrt (1 + Sx * p.Q).det := by linarith
    have hq : 0 ≤ Matrix.vecMul (mx - p.target) (p.Q * (1 + Sx * p.Q)⁻¹) ⬝ᵥ (mx - p.target) := by
      have hpsd := S1_posSemidef hQ hS
      have h2 := hpsd.2 (mx - p.target)
      simpa [Matrix.dotProduct_mulVec] using h2
    have hexp : Real.exp (-(1/2 : ℝ) *
        (Matrix.vecMul (mx - p.target) (p.Q * (1 + Sx * p.Q)⁻¹) ⬝ᵥ (mx - p.target))) ≤ 1 := by
      rw [Real.exp_le_one_iff]
      nlinarith
    have hexppos : 0 < Real.exp (-(1/2 : ℝ) *
        (Matrix.vecMul (mx - p.target) (p.Q * (1 + Sx * p.Q)⁻¹) ⬝ᵥ (mx - p.target))) :=
      Real.exp_pos _
    have hratio : Real.exp (-(1/2 : ℝ) *
        (Matrix.vecMul (mx - p.target) (p.Q * (1 + Sx * p.Q)⁻¹) ⬝ᵥ (mx - p.target))) /
          Real.sqrt (1 + Sx * p.Q).det ≤ 1 := by
      rw [div_le_one hsqrtpos]; linarith
    have hratiopos : 0 < Real.exp (-(1/2 : ℝ) *
        (Matrix.vecMul (mx - p.target) (p.Q * (1 + Sx * p.Q)⁻¹) ⬝ᵥ (mx - p.target))) /
          Real.sqrt (1 + Sx * p.Q).det := div_pos hexppos hsqrtpos
    linarith
  }

/-- Witness for `quadratic_saturating_loss_minimal` at `d = 1`, `Q = 1`,
`target = 0`, `mx = 1`, `Sx = 0`. -/
theorem quadratic_saturating_loss_minimal_witness :
    (quadratic_saturating_loss (fun _ : Fin 1 => (0 : ℝ)) 0 ⟨1, fun _ => 0⟩).1 = 0 ∧
      0 ≤ (quadratic_saturating_loss (fun _ : Fin 1 => (1 : ℝ)) 0 ⟨1, fun _ => 0⟩).1 ∧
      (quadratic_saturating_loss (fun _ : Fin 1 => (1 : ℝ)) 0 ⟨1, fun _ => 0⟩).1 < 1 :=
  quadratic_saturating_loss_minimal (fun _ : Fin 1 => (1 : ℝ)) 0 ⟨1, fun _ => 0⟩
    Matrix.PosDef.one Matrix.PosSemidef.zero

/-! ## Theorems for the rollout claims -/

/-- C7: `propagate_particles` returns exactly the pair
`(x + delta_x, noise_scale)` where `u` is the policy evaluated on the
angle-augmented ensemble, `(delta_x, noise_scale)` is the dynamics model's
prediction on the row-wise concatenation of the augmented ensemble and `u`,
and the noise scale is passed through unchanged.  The embedding is a pure
function, so the purity part of the contract is inherent in the type. -/
theorem propagate_particles_contract {D Da U : ℕ} {ν : Type} (M : Model D Da U ν)
    (x : Ensemble D) :
    propagate_particles M x =
      (List.zipWith (fun xi di => xi + di) x
         (M.predict_symbolic (List.zipWith (fun a b => Fin.append a b) (x.map M.gTrig)
            (M.evaluate (x.map M.gTrig)))).1,
       (M.predict_symbolic (List.zipWith (fun a b => Fin.append a b) (x.map M.gTrig)
            (M.evaluate (x.map M.gTrig)))).2) := rfl

/-- C1: with initial discount `gamma0 = g0`, the `t`-th per-step mean cost
emitted by `rollout` is `g0^(t+1) * c_t`, where `c_t` (`raw_costAt`) is the
undiscounted mean cost of step `t`: each step emits `gamma*mc_next` using the
current `gamma` (initially `gamma0`) and only afterwards updates the carried
discount to `gamma*gamma0`. -/
theorem mean_costs_discount {D Da U : ℕ} {ν : Type} (M : Model D Da U ν)
    (r : Bool) (x0 : Ensemble D) (H : ℕ) (g0 : ℚ) (z : List (Ensemble D))
    (t : ℕ) (ht : t < H) (hz : H ≤ z.length) :
    (rollout M x0 H g0 r z).1[t]? =
      some (g0 ^ (t + 1) * raw_costAt M r (z.take H) x0 t) := by
  have ht' : t < (z.take H).length := by
    rw [List.length_take]; omega
  show ((scan_rollout M r g0 (z.take H) x0 g0).map (fun s => s.1))[t]? = _
  rw [List.getElem?_map, scan_rollout_getElem M r g0 t (z.take H) x0 g0 ht']
  have hco : g0 * g0 ^ t = g0 ^ (t + 1) := by ring
  simp only [Option.map_some', hco]

/-- Witness for `mean_costs_discount`: a 3-step horizon with `gamma0 = 1/2`
on the concrete model, checked at step `t = 1`. -/
theorem mean_costs_discount_witness :
    (rollout witModel [fun _ => (0 : ℚ)] 3 (1/2) true
        (List.replicate 3 [fun _ => (0 : ℚ)])).1[1]? =
      some ((1/2 : ℚ) ^ (1 + 1) *
        raw_costAt witModel true ((List.replicate 3 [fun _ => (0 : ℚ)]).take 3)
          [fun _ => (0 : ℚ)] 1) :=
  mean_costs_discount witModel true [fun _ => (0 : ℚ)] 3 (1/2)
    (List.replicate 3 [fun _ => (0 : ℚ)]) 1 (by decide) (by decide)

lemma propagate_particles_length {D Da U : ℕ} {ν : Type} (M : Model D Da U ν)
    (x : Ensemble D)
    (hpol : ∀ xa : Ensemble Da, (M.evaluate xa).length = xa.length)
    (hdyn : ∀ xu : Ensemble (Da + U), (M.predict_symbolic xu).1.length = xu.length) :
    (propagate_particles M x).1.length = x.length := by
  simp [propagate_particles, List.length_zipWith, hdyn, hpol]

/-- C9: the particle count is invariant across the whole horizon: starting
from an ensemble of `n` rows, every ensemble produced by a scan step — the
propagated `x + delta_x`, or with `resample=True` the reprojected
`mx + z_t·cholesky(Sx)ᵀ` — again has exactly `n` rows, given the shape
contracts of the policy and dynamics interfaces and noise slices of `n`
rows. -/
theorem particle_count_invariant {D Da U : ℕ} {ν : Type} (M : Model D Da U ν)
    (r : Bool) (g0 : ℚ) (n : ℕ)
    (hpol : ∀ xa : Ensemble Da, (M.evaluate xa).length = xa.length)
    (hdyn : ∀ xu : Ensemble (Da + U), (M.predict_symbolic xu).1.length = xu.length) :
    ∀ (zs : List (Ensemble D)) (x : Ensemble D) (γ : ℚ),
      x.length = n → (∀ zt ∈ zs, zt.length = n) →
      ∀ s ∈ scan_rollout M r g0 zs x γ, s.2.2.length = n := by
  intro zs
  induction zs with
  | nil =>
    intro x γ hx hz s hs
    simp [scan_rollout] at hs
  | cons z0 tl ih =>
    intro x γ hx hz s hs
    have hnext : (next_ensemble M r z0 x).length = n := by
      unfold next_ensemble
      by_cases hr : r
      · simp only [hr, if_pos, reproject, List.length_map]
        exact hz z0 (by simp)
      · simp only [hr, if_neg, Bool.false_eq_true, not_false_iff]
        rw [propagate_particles_length M x hpol hdyn, hx]
    simp only [scan_rollout, List.mem_cons, step_rollout_ensemble,
      step_rollout_gamma] at hs
    rcases hs with hs | hs
    · rw [hs]
      exact hnext
    · exact ih (next_ensemble M r z0 x) (γ * g0) hnext
        (fun zt h => hz zt (List.mem_cons_of_mem _ h)) s hs

/-- Witness for `particle_count_invariant` on the concrete model: the single
scan step of a 1-step, 1-particle rollout with resampling records an
ensemble with exactly one row. -/
theorem particle_count_invariant_witness :
    ((step_rollout witModel true 1 [fun _ => (0 : ℚ)] [fun _ => (0 : ℚ)] 1).1,
      (step_rollout witModel true 1 [fun _ => (0 : ℚ)] [fun _ => (0 : ℚ)] 1).2.1,
      (step_rollout witModel true 1 [fun _ => (0 : ℚ)] [fun _ => (0 : ℚ)] 1).2.2.1).2.2.length
        = 1 :=
  particle_count_invariant witModel true 1 1 (fun _ => rfl)
    (fun xu => by simp [witModel]) [[fun _ => (0 : ℚ)]] [fun _ => (0 : ℚ)] 1
    rfl (by simp)
    ((step_rollout witModel true 1 [fun _ => (0 : ℚ)] [fun _ => (0 : ℚ)] 1).1,
      (step_rollout witModel true 1 [fun _ => (0 : ℚ)] [fun _ => (0 : ℚ)] 1).2.1,
      (step_rollout witModel true 1 [fun _ => (0 : ℚ)] [fun _ => (0 : ℚ)] 1).2.2.1)
    (by simp only [scan_rollout]; exact List.mem_cons_self _ _)

lemma ensembleAt_succ_resample {D Da U : ℕ} {ν : Type} (M : Model D Da U ν) :
    ∀ (t : ℕ) (zs : List (Ensemble D)) (x : Ensemble D) (zt : Ensemble D),
      zs[t]? = some zt →
      ensembleAt M true zs x (t + 1) =
        reproject (empMean (raw_ensembleAt M true zs x t))
          (M.cholesky (empCov (raw_ensembleAt M true zs x t))) zt := by
  intro t
  induction t with
  | zero =>
    intro zs x zt hz
    match zs with
    | [] => simp at hz
    | z0 :: tl =>
      have hz0 : z0 = zt := by simpa using hz
      subst hz0
      simp [ensembleAt_succ_cons, ensembleAt_zero, next_ensemble, raw_ensembleAt]
  | succ t ih =>
    intro zs x zt hz
    match zs with
    | [] => simp at hz
    | z0 :: tl =>
      have hz' : tl[t]? = some zt := by simpa using hz
      rw [ensembleAt_succ_cons, ih tl (next_ensemble M true z0 x) zt hz']
      simp only [raw_ensembleAt, ensembleAt_succ_cons]

/-- C10: with `resample=True`, the trajectory recorded for step `t` is the
reprojected ensemble `mx + z_t·cholesky(Sx)ᵀ` built from the moments of the
raw propagated ensemble, while both the step-`t` mean cost and the step-`t`
per-particle costs are computed from the raw propagated ensemble itself
(before reprojection); the `trajectories` value returned by `rollout` is the
batch-major transpose of the recorded time-major list. -/
theorem trajectories_record_resampled {D Da U : ℕ} {ν : Type} (M : Model D Da U ν)
    (x0 : Ensemble D) (H : ℕ) (g0 : ℚ) (z : List (Ensemble D)) (t : ℕ)
    (zt : Ensemble D) (ht : t < H) (hz : H ≤ z.length) (hzt : z[t]? = some zt) :
    ((scan_rollout M true g0 (z.take H) x0 g0).map (fun s => s.2.2))[t]? =
        some (reproject (empMean (raw_ensembleAt M true (z.take H) x0 t))
          (M.cholesky (empCov (raw_ensembleAt M true (z.take H) x0 t))) zt) ∧
      ((scan_rollout M true g0 (z.take H) x0 g0).map (fun s => s.1))[t]? =
        some (g0 ^ (t + 1) *
          M.cost_m (empMean (raw_ensembleAt M true (z.take H) x0 t))
            (empCov (raw_ensembleAt M true (z.take H) x0 t))) ∧
      ((scan_rollout M true g0 (z.take H) x0 g0).map (fun s => s.2.1))[t]? =
        some ((M.cost_p (raw_ensembleAt M true (z.take H) x0 t)).map
          (fun c => g0 ^ (t + 1) * c)) ∧
      (rollout M x0 H g0 true z).2.2 =
        ((scan_rollout M true g0 (z.take H) x0 g0).map (fun s => s.2.2)).transpose := by
  have ht' : t < (z.take H).length := by
    rw [List.length_take]; omega
  have htake : (z.take H)[t]? = some zt := by
    rw [List.getElem?_take_of_lt ht]
    exact hzt
  have hmaster := scan_rollout_getElem M true g0 t (z.take H) x0 g0 ht'
  have hco : g0 * g0 ^ t = g0 ^ (t + 1) := by ring
  refine ⟨?_, ?_, ?_, rfl⟩
  · rw [List.getElem?_map, hmaster, Option.map_some']
    rw [ensembleAt_succ_resample M t (z.take H) x0 zt htake]
  · rw [List.getElem?_map, hmaster, Option.map_some']
    simp only [hco, raw_costAt]
  · rw [List.getElem?_map, hmaster, Option.map_some']
    simp only [hco]

/-- Witness for `trajectories_record_resampled` on the concrete model with
`H = 1`, `t = 0`. -/
theorem trajectories_record_resampled_witness :
    ((scan_rollout witModel true (1 : ℚ) ([[fun _ => (0 : ℚ)]].take 1)
        [fun _ => (0 : ℚ)] 1).map (fun s => s.2.2))[0]? =
        some (reproject
          (empMean (raw_ensembleAt witModel true ([[fun _ => (0 : ℚ)]].take 1)
            [fun _ => (0 : ℚ)] 0))
          (witModel.cholesky
            (empCov (raw_ensembleAt witModel true ([[fun _ => (0 : ℚ)]].take 1)
              [fun _ => (0 : ℚ)] 0))) [fun _ => (0 : ℚ)]) ∧
      ((scan_rollout witModel true (1 : ℚ) ([[fun _ => (0 : ℚ)]].take 1)
          [fun _ => (0 : ℚ)] 1).map (fun s => s.1))[0]? =
        some ((1 : ℚ) ^ (0 + 1) *
          witModel.cost_m
            (empMean (raw_ensembleAt witModel true ([[fun _ => (0 : ℚ)]].take 1)
              [fun _ => (0 : ℚ)] 0))
            (empCov (raw_ensembleAt witModel true ([[fun _ => (0 : ℚ)]].take 1)
              [fun _ => (0 : ℚ)] 0))) ∧
      ((scan_rollout witModel true (1 : ℚ) ([[fun _ => (0 : ℚ)]].take 1)
          [fun _ => (0 : ℚ)] 1).map (fun s => s.2.1))[0]? =
        some ((witModel.cost_p (raw_ensembleAt witModel true
            ([[fun _ => (0 : ℚ)]].take 1) [fun _ => (0 : ℚ)] 0)).map
          (fun c => (1 : ℚ) ^ (0 + 1) * c)) ∧
      (rollout witModel [fun _ => (0 : ℚ)] 1 (1 : ℚ) true [[fun _ => (0 : ℚ)]]).2.2 =
        ((scan_rollout witModel true (1 : ℚ) ([[fun _ => (0 : ℚ)]].take 1)
          [fun _ => (0 : ℚ)] 1).map (fun s => s.2.2)).transpose :=
  trajectories_record_resampled witModel [fun _ => (0 : ℚ)] 1 1 [[fun _ => (0 : ℚ)]]
    0 [fun _ => (0 : ℚ)] (by decide) (by decide) (by decide)

/-! ## Theorems for the `get_loss` buffer claims (C2, C6) -/

lemma tile_rows_length {α : Type} (z : List α) (reps : ℕ) :
    (tile_rows z reps).length = reps * z.length := by
  simp [tile_rows, List.length_flatten, List.map_replicate, List.sum_replicate, smul_eq_mul]

lemma le_crn_growth {H cap : ℕ} (hcap : 0 < cap) :
    H ≤ crn_growth_factor H cap * cap := by
  have hcpos : (0 : ℚ) < (cap : ℚ) := by exact_mod_cast hcap
  have h1 : (H : ℚ) / (cap : ℚ) ≤ ((⌈(H : ℚ) / (cap : ℚ)⌉ : ℤ) : ℚ) := Int.le_ceil _
  have h2 : (H : ℚ) ≤ ((⌈(H : ℚ) / (cap : ℚ)⌉ : ℤ) : ℚ) * (cap : ℚ) := by
    rw [div_le_iff₀ hcpos] at h1
    exact h1
  have h3 : (0 : ℤ) ≤ ⌈(H : ℚ) / (cap : ℚ)⌉ := Int.ceil_nonneg (by positivity)
  have h4 : ((crn_growth_factor H cap : ℤ) : ℚ) = ((⌈(H : ℚ) / (cap : ℚ)⌉ : ℤ) : ℚ) := by
    rw [crn_growth_factor, Int.toNat_of_nonneg h3]
  have h5 : (H : ℚ) ≤ ((crn_growth_factor H cap : ℤ) : ℚ) * (cap : ℚ) := by
    rw [h4]; exact h2
  exact_mod_cast h5

/-- C6: the buffer-shape adaptation of `get_loss` always hands the rollout a
buffer of exactly `H` row slices; when `H` exceeds the buffer capacity the
tiled buffer has at least `H` rows before truncation; and when `H` is at most
the capacity the result is exactly the first `H` rows of the original
buffer. -/
theorem crn_z_spec {α : Type} (z : List α) (H : ℕ) (hcap : 0 < z.length) :
    (crn_z z H).length = H ∧
      (z.length < H → H ≤ (tile_rows z (crn_growth_factor H z.length)).length) ∧
      (H ≤ z.length → crn_z z H = z.take H) := by
  have hgrow : z.length < H → H ≤ (tile_rows z (crn_growth_factor H z.length)).length := by
    intro _
    rw [tile_rows_length]
    exact le_crn_growth hcap
  refine ⟨?_, hgrow, ?_⟩
  · unfold crn_z
    by_cases h : z.length < H
    · rw [if_pos h, List.length_take]
      have := hgrow h
      omega
    · rw [if_neg h, List.length_take]
      omega
  · intro h
    unfold crn_z
    rw [if_neg (by omega)]

/-- Witness for `crn_z_spec`: a 3-slice buffer asked for horizon 7. -/
theorem crn_z_spec_witness :
    (crn_z [0, 1, 2] 7).length = 7 ∧
      (([0, 1, 2] : List ℕ).length < 7 →
        7 ≤ (tile_rows [0, 1, 2] (crn_growth_factor 7 ([0, 1, 2] : List ℕ).length)).length) ∧
      (7 ≤ ([0, 1, 2] : List ℕ).length → crn_z [0, 1, 2] 7 = ([0, 1, 2] : List ℕ).take 7) :=
  crn_z_spec [0, 1, 2] 7 (by decide)

/-- C2 counterexample: two consecutive `get_loss` invocations do NOT draw
identical common-random-number buffers: each invocation executes
`np.random.normal` afresh on the advancing process-global RNG, so with the
stream `i ↦ i` (and `n_samples = D = 1`) the first buffer starts with draw
`0` while the second starts with draw `100`. -/
theorem crn_buffer_two_calls_differ :
    (get_loss_crn_draw (fun i => (i : ℚ)) 0 1 1).1 ≠
      (get_loss_crn_draw (fun i => (i : ℚ))
        (get_loss_crn_draw (fun i => (i : ℚ)) 0 1 1).2 1 1).1 := by
  intro h
  have h0 := congrArg (fun l => l[0]?) h
  simp only [get_loss_crn_draw, np_random_normal, List.getElem?_map,
    List.getElem?_range (by norm_num : (0 : ℕ) < 100 * 1 * 1)] at h0
  norm_num at h0

/-- C2 (amended): the buffer is per-invocation, not process-wide.  Within one
`get_loss` build the buffer is drawn once (the embedding is a pure function
of the RNG state, so reusing the built graph reuses the same `z`), and the
buffers of two consecutive invocations coincide exactly when the global RNG
stream repeats over the consumed segment of `100·n_samples·D` draws — which
a fresh normal stream does not do. -/
theorem crn_buffer_eq_iff_stream_repeats (stream : ℕ → ℚ) (c n_samples D : ℕ) :
    (get_loss_crn_draw stream c n_samples D).1 =
        (get_loss_crn_draw stream
          (get_loss_crn_draw stream c n_samples D).2 n_samples D).1 ↔
      ∀ i < 100 * n_samples * D, stream (c + i) = stream (c + 100 * n_samples * D + i) := by
  simp only [get_loss_crn_draw, np_random_normal]
  rw [List.map_inj_left]
  constructor
  · intro h i hi
    exact h i (List.mem_range.2 hi)
  · intro h i hi
    exact h i (List.mem_range.1 hi)

/-! ## Theorems for the resampling moment claims (C3) -/

lemma list_sum_map_add {α : Type} (l : List α) (f g : α → ℚ) :
    (l.map fun a => f a + g a).sum = (l.map f).sum + (l.map g).sum := by
  induction l with
  | nil => simp
  | cons a l ih => simp [ih]; ring

lemma list_sum_map_const {α : Type} (l : List α) (c : ℚ) :
    (l.map fun _ => c).sum = (l.length : ℚ) * c := by
  induction l with
  | nil => simp
  | cons a l ih => simp [ih]; ring

lemma list_sum_map_mul_left {α : Type} (l : List α) (c : ℚ) (f : α → ℚ) :
    (l.map fun a => c * f a).sum = c * (l.map f).sum := by
  induction l with
  | nil => simp
  | cons a l ih => simp [ih]; ring

lemma list_sum_map_mul_right {α : Type} (l : List α) (c : ℚ) (f : α → ℚ) :
    (l.map fun a => f a * c).sum = (l.map f).sum * c := by
  induction l with
  | nil => simp
  | cons a l ih => simp [ih]; ring

lemma list_sum_map_finsum {α : Type} {d : ℕ} (l : List α) (f : α → Fin d → ℚ) :
    (l.map fun a => ∑ k, f a k).sum = ∑ k, (l.map fun a => f a k).sum := by
  induction l with
  | nil => simp
  | cons a l ih => simp [ih, Finset.sum_add_distrib]

/-- C3 counterexample: the reprojection does NOT reproduce the empirical
moments for an arbitrary noise slice.  For the propagated ensemble
`x = [[1], [-1]]` (with empirical mean `0` and covariance `1`, and `L = 1` a
valid Cholesky factor: `L·Lᵀ = empCov x`), the slice `z_t = [[1], [1]]`
yields a reprojected ensemble with empirical mean `1 ≠ 0`. -/
theorem reproject_moment_mismatch :
    (1 : Matrix (Fin 1) (Fin 1) ℚ) * (1 : Matrix (Fin 1) (Fin 1) ℚ).transpose =
        empCov [fun _ => (1 : ℚ), fun _ => (-1 : ℚ)] ∧
      empMean (reproject (empMean [fun _ => (1 : ℚ), fun _ => (-1 : ℚ)])
          (1 : Matrix (Fin 1) (Fin 1) ℚ) [fun _ => (1 : ℚ), fun _ => (1 : ℚ)]) ≠
        empMean [fun _ => (1 : ℚ), fun _ => (-1 : ℚ)] := by
  have hmx : empMean ([fun _ => (1 : ℚ), fun _ => (-1 : ℚ)] : Ensemble 1) =
      fun _ => 0 := by
    funext j
    simp [empMean]
  constructor
  · ext j k
    have hj : j = k := Subsingleton.elim j k
    subst hj
    simp [empCov, hmx, Matrix.one_apply]
  · intro h
    have h0 := congrFun h 0
    rw [hmx] at h0
    simp [empMean, reproject, hmx, Matrix.one_apply, Fin.sum_univ_one] at h0

/-- C3 (amended): the reprojection `mx + z_t·Lᵀ` reproduces the moments
`(mx, Sx)` exactly when the noise slice itself has empirical mean `0` and
empirical covariance the identity; in that case the empirical mean and
empirical covariance (as computed by the code) of the reprojected ensemble
equal `mx` and `Sx = L·Lᵀ` exactly. -/
theorem reproject_moment_match {d : ℕ} (mx : RVec d) (Sx L : Matrix (Fin d) (Fin d) ℚ)
    (z : Ensemble d) (hz : z ≠ [])
    (hL : L * L.transpose = Sx)
    (hmean : empMean z = 0)
    (hcov : empCov z = 1) :
    empMean (reproject mx L z) = mx ∧ empCov (reproject mx L z) = Sx := by
  have hn : ((z.length : ℚ)) ≠ 0 := by
    have hlz : z.length ≠ 0 := by simpa [List.length_eq_zero] using hz
    exact_mod_cast hlz
  have hsum0 : ∀ k, (z.map fun r => r k).sum = 0 := by
    intro k
    have h := congrFun hmean k
    simp only [empMean, Pi.zero_apply] at h
    rcases div_eq_zero_iff.mp h with h' | h'
    · exact h'
    · exact absurd h' hn
  have hsum2 : ∀ l m, (z.map fun r => r l * r m).sum =
      if l = m then (z.length : ℚ) else 0 := by
    intro l m
    have h := congrFun (congrFun hcov l) m
    simp only [empCov, Matrix.of_apply, Matrix.one_apply, hmean, Pi.zero_apply,
      mul_zero, zero_mul, sub_zero] at h
    by_cases hlm : l = m
    · rw [if_pos hlm] at h ⊢
      rw [div_eq_one_iff_eq hn] at h
      exact h
    · rw [if_neg hlm] at h ⊢
      rcases div_eq_zero_iff.mp h with h' | h'
      · exact h'
      · exact absurd h' hn
  have hmean' : empMean (reproject mx L z) = mx := by
    funext j
    simp only [empMean, reproject, List.map_map, List.length_map, Function.comp_def]
    rw [list_sum_map_add z (fun _ => mx j) (fun zi => ∑ k, zi k * L j k),
      list_sum_map_const, list_sum_map_finsum]
    have hzero : ∀ k, (z.map fun zi => zi k * L j k).sum = 0 := by
      intro k
      rw [list_sum_map_mul_right z (L j k) (fun zi => zi k), hsum0, zero_mul]
    simp only [hzero, Finset.sum_const_zero, add_zero]
    exact mul_div_cancel_left₀ (mx j) hn
  refine ⟨hmean', ?_⟩
  ext j k
  simp only [empCov, Matrix.of_apply, hmean']
  simp only [reproject, List.map_map, List.length_map, Function.comp_def]
  have hexp : ∀ zi : RVec d,
      (mx j + ∑ l, zi l * L j l) * (mx k + ∑ m, zi m * L k m) =
        (mx j * mx k + mx j * (∑ m, zi m * L k m) + (∑ l, zi l * L j l) * mx k) +
          (∑ l, zi l * L j l) * (∑ m, zi m * L k m) := by
    intro zi; ring
  simp only [hexp]
  rw [list_sum_map_add z
    (fun zi => mx j * mx k + mx j * (∑ m, zi m * L k m) + (∑ l, zi l * L j l) * mx k)
    (fun zi => (∑ l, zi l * L j l) * (∑ m, zi m * L k m))]
  rw [list_sum_map_add z
    (fun zi => mx j * mx k + mx j * (∑ m, zi m * L k m))
    (fun zi => (∑ l, zi l * L j l) * mx k)]
  rw [list_sum_map_add z (fun _ => mx j * mx k) (fun zi => mx j * (∑ m, zi m * L k m))]
  rw [list_sum_map_const]
  have hS2 : (z.map fun zi => mx j * (∑ m, zi m * L k m)).sum = 0 := by
    rw [list_sum_map_mul_left z (mx j) (fun zi => ∑ m, zi m * L k m),
      list_sum_map_finsum]
    have hzero : ∀ m, (z.map fun zi => zi m * L k m).sum = 0 := by
      intro m
      rw [list_sum_map_mul_right z (L k m) (fun zi => zi m), hsum0, zero_mul]
    simp [hzero]
  have hS3 : (z.map fun zi => (∑ l, zi l * L j l) * mx k).sum = 0 := by
    rw [list_sum_map_mul_right z (mx k) (fun zi => ∑ l, zi l * L j l),
      list_sum_map_finsum]
    have hzero : ∀ l, (z.map fun zi => zi l * L j l).sum = 0 := by
      intro l
      rw [list_sum_map_mul_right z (L j l) (fun zi => zi l), hsum0, zero_mul]
    simp [hzero]
  have hS4 : (z.map fun zi => (∑ l, zi l * L j l) * (∑ m, zi m * L k m)).sum =
      (∑ l, L j l * L k l) * (z.length : ℚ) := by
    have hAB : ∀ zi : RVec d,
        (∑ l, zi l * L j l) * (∑ m, zi m * L k m) =
          ∑ l, ∑ m, L j l * L k m * (zi l * zi m) := by
      intro zi
      rw [Finset.sum_mul_sum]
      refine Finset.sum_congr rfl fun l _ => Finset.sum_congr rfl fun m _ => ?_
      ring
    simp only [hAB]
    rw [list_sum_map_finsum]
    have hinner : ∀ l, (z.map fun zi => ∑ m, L j l * L k m * (zi l * zi m)).sum =
        L j l * L k l * (z.length : ℚ) := by
      intro l
      rw [list_sum_map_finsum]
      have hterm : ∀ m, (z.map fun zi => L j l * L k m * (zi l * zi m)).sum =
          L j l * L k m * (if l = m then (z.length : ℚ) else 0) := by
        intro m
        rw [list_sum_map_mul_left z (L j l * L k m) (fun zi => zi l * zi m), hsum2]
      simp only [hterm, mul_ite, mul_zero]
      simp [Finset.sum_ite_eq]
    simp only [hinner]
    rw [Finset.sum_mul]
  rw [hS2, hS3, hS4]
  have hSx : Sx j k = ∑ l, L j l * L k l := by
    rw [← hL]
    simp [Matrix.mul_apply, Matrix.transpose_apply]
  rw [hSx]
  field_simp

/-- Witness for `reproject_moment_match`: the slice `z = [[1], [-1]]` has
empirical mean `0` and empirical covariance `1`, so reprojecting
`mx = [5]`, `L = 1` (`Sx = 1`) reproduces the moments exactly. -/
theorem reproject_moment_match_witness :
    empMean (reproject (fun _ => (5 : ℚ)) (1 : Matrix (Fin 1) (Fin 1) ℚ)
        [fun _ => (1 : ℚ), fun _ => (-1 : ℚ)]) = (fun _ => (5 : ℚ)) ∧
      empCov (reproject (fun _ => (5 : ℚ)) (1 : Matrix (Fin 1) (Fin 1) ℚ)
        [fun _ => (1 : ℚ), fun _ => (-1 : ℚ)]) = (1 : Matrix (Fin 1) (Fin 1) ℚ) :=
  reproject_moment_match (fun _ => (5 : ℚ)) 1 1 [fun _ => (1 : ℚ), fun _ => (-1 : ℚ)]
    (by simp)
    (by ext j k; have hj : j = k := Subsingleton.elim j k; subst hj
        simp [Matrix.one_apply])
    (by funext j; simp [empMean])
    (by ext j k; have hj : j = k := Subsingleton.elim j k; subst hj
        simp [empCov, empMean, Matrix.one_apply])

end Kusanagi
